import Mathlib

/-!
# Verification of StrepHit's annotation, POS-tagging and training glue

Shallow embedding of the three Python modules

* `strephit/annotation/parse_results.py`
* `strephit/commons/pos_tag.py`
* `strephit/classification/train.py`

Python dictionaries are modelled as association lists (`List (k × v)`);
dictionary update keeps the key in place and appends fresh keys at the end.
CSV rows (which all share the header of the file, `csv.DictReader` filling
short rows with the falsy `None`) are modelled as a structure whose
`chunks`, `answers` and `fes` fields hold the values of the
`chunk_NN` / `answer_chunk_NN` / `fe_NN` columns in column order, absent
values read as the falsy `""` (`List.getD _ ""`).
`random.choice` is modelled as an arbitrary choice function `pick` together
with the hypothesis that it picks an element of a non-empty list.
-/

set_option autoImplicit false

namespace StrepHit

/-! ## Embedding of `strephit/annotation/parse_results.py` -/

/-- A row of the crowdflower results CSV (one judgment of one unit).
`unitId`, `rowId`, `sentence`, `frame` are the `_unit_id`, `id`, `sentence`
and `frame` columns; `chunks`, `answers`, `fes` hold the `chunk_NN`,
`answer_chunk_NN` and `fe_NN` columns in column order. -/
structure Row where
  unitId : String
  rowId : String
  sentence : String
  frame : String
  chunks : List String
  answers : List String
  fes : List String
  deriving Repr, DecidableEq, Inhabited

/-- Python errors that the embedded functions can raise. -/
inductive PyErr where
  | assertionError
  | valueError
  deriving Repr, DecidableEq

/-- JSON-ish values appearing in the produced unit object. -/
inductive JVal where
  | str : String → JVal
  | fesMap : List (String × Option String) → JVal
  deriving Repr, DecidableEq

/-- Python dictionary update `m[k] = f(m[k])` with default `init` when `k` is
absent (the `defaultdict` / plain-assignment pattern): the key keeps its
position, fresh keys are appended at the end. -/
def upsert {β : Type} (k : String) (f : β → β) (init : β) :
    List (String × β) → List (String × β)
  | [] => [(k, init)]
  | (k0, v0) :: rest =>
      if k0 = k then (k0, f v0) :: rest else (k0, v0) :: upsert k f init rest

/-- `chunks[chunk].append(fe)` on the `defaultdict(list)` of line 26:
append `fe` to the entry of `chunk`, creating the entry if absent. -/
def addJudgment (m : List (String × List String)) (chunk fe : String) :
    List (String × List String) :=
  upsert chunk (fun js => js ++ [fe]) [fe] m

/-- The inner loop of lines 28-32 for one row: for each chunk column `i`,
record the judgment `answer_chunk_i` for `chunk_i` when both are truthy
and the answer is not the literal string `"None"`. -/
def rowJudgments (chunkCount : Nat) (row : Row) (m : List (String × List String)) :
    List (String × List String) :=
  (List.range chunkCount).foldl (fun m i =>
    if row.answers.getD i "" ≠ "" ∧ row.chunks.getD i "" ≠ "" ∧
        row.answers.getD i "" ≠ "None" then
      addJudgment m (row.chunks.getD i "") (row.answers.getD i "")
    else m) m

/-- Lines 26-32: the mapping chunk → all assigned frame elements. -/
def buildChunks (chunkCount : Nat) (rows : List Row) : List (String × List String) :=
  rows.foldl (fun m row => rowJudgments chunkCount row m) []

/-- `counts[fe] += 1` on the `defaultdict(int)` of line 37. -/
def bump (m : List (String × Nat)) (fe : String) : List (String × Nat) :=
  upsert fe (fun n => n + 1) 1 m

/-- Lines 37-39: vote counts of the judgments of one chunk. -/
def tally (judgments : List String) : List (String × Nat) :=
  judgments.foldl bump []

/-- `max(counts.values())` (line 41); `0` stands for the empty case the
source never reaches (every chunk entry holds at least one judgment). -/
def maxCount (counts : List (String × Nat)) : Nat :=
  (counts.map Prod.snd).foldl max 0

/-- Line 42, the list comprehension: frame elements whose count is maximal. -/
def winners (counts : List (String × Nat)) : List String :=
  (counts.filter (fun p => p.2 == maxCount counts)).map Prod.fst

/-- `fes[fe] = chunk` dictionary assignment: update in place, append if new. -/
def setChunk (m : List (String × Option String)) (fe : String) (v : Option String) :
    List (String × Option String) :=
  upsert fe (fun _ => v) v m

/-- One iteration of the loop of lines 36-43 for the entry `(chunk, judgments)`. -/
def electChunk (pick : List String → String) (fes : List (String × Option String))
    (chunk : String) (judgments : List String) : List (String × Option String) :=
  setChunk fes (pick (winners (tally judgments))) (some chunk)

/-- Lines 35-43: the frame-element → chunk map decided by majority voting,
`pick` standing for `random.choice`. -/
def buildFes (pick : List String → String) (chunksMap : List (String × List String)) :
    List (String × Option String) :=
  chunksMap.foldl (fun fes p => electChunk pick fes p.1 p.2) []

/-- Lines 46-49: bind every still-missing non-empty `fe_NN` column of the
first row to `None`. -/
def fillMissing (feCount : Nat) (first : Row) (fes : List (String × Option String)) :
    List (String × Option String) :=
  (List.range feCount).foldl (fun fes i =>
    if first.fes.getD i "" ≠ "" ∧ fes.lookup (first.fes.getD i "") = none then
      setChunk fes (first.fes.getD i "") none
    else fes) fes

/-- `process_unit` (lines 16-58).  The four `assert` statements raise
`AssertionError`; `max` over no matching `chunk_NN` / `fe_NN` column
raises `ValueError` (lines 22-23); otherwise the produced unit object is the
dict literal of lines 51-56, in key order. -/
def process_unit (pick : List String → String) (unitId : String) (sentences : List Row) :
    Except PyErr (List (String × JVal)) :=
  if ¬ sentences.all (fun s => s.unitId == unitId) then .error .assertionError
  else if (sentences.map Row.rowId).dedup.length ≠ 1 then .error .assertionError
  else if (sentences.map Row.sentence).dedup.length ≠ 1 then .error .assertionError
  else if (sentences.map Row.frame).dedup.length ≠ 1 then .error .assertionError
  else
    match sentences with
    | [] => .error .assertionError
    | first :: _ =>
      if first.chunks = [] ∨ first.fes = [] then .error .valueError
      else
        .ok [("id", .str first.rowId), ("sentence", .str first.sentence),
             ("frame", .str first.frame),
             ("fes", .fesMap (fillMissing first.fes.length first
               (buildFes pick (buildChunks first.chunks.length sentences))))]

/-- `sentences[each['_unit_id']].append(each)` (lines 68-71). -/
def appendRow (m : List (String × List Row)) (k : String) (r : Row) :
    List (String × List Row) :=
  upsert k (fun rs => rs ++ [r]) [r] m

/-- The grouping of the CSV rows by `_unit_id` done by `main` (lines 68-71). -/
def groupRows (rows : List Row) : List (String × List Row) :=
  rows.foldl (fun m r => appendRow m r.unitId r) []

/-- The output loop of `main` (lines 73-76): one JSON line per group,
aborting at the first raised error. -/
def runUnits (pick : List String → String) :
    List (String × List Row) → Except PyErr (List (List (String × JVal)))
  | [] => .ok []
  | (k, v) :: rest =>
      match process_unit pick k v with
      | .error e => .error e
      | .ok u =>
          match runUnits pick rest with
          | .error e => .error e
          | .ok us => .ok (u :: us)

/-- `main` of `parse_results.py` (lines 63-77), output abstracted as the
list of written JSON objects. -/
def parse_results_main (pick : List String → String) (rows : List Row) :
    Except PyErr (List (List (String × JVal))) :=
  runUnits pick (groupRows rows)

/-- The `fes` member of a produced unit object. -/
def unitFes (u : List (String × JVal)) : List (String × Option String) :=
  match u.lookup "fes" with
  | some (.fesMap m) => m
  | _ => []

/-- Number of votes a frame element received among the judgments of a chunk. -/
def votes (judgments : List String) (fe : String) : Nat :=
  judgments.count fe

/-- The maximum vote count over all frame elements proposed for a chunk. -/
def maxVotes (judgments : List String) : Nat :=
  (judgments.map (votes judgments)).foldl max 0

/-- `fe` won the majority vote for `chunk`: it was proposed for `chunk`
and its vote count is maximal among the chunk's judgments. -/
def isMajority (chunksMap : List (String × List String)) (fe chunk : String) : Prop :=
  ∃ J, chunksMap.lookup chunk = some J ∧ fe ∈ J ∧ votes J fe = maxVotes J

/-! ## Embedding of `strephit/commons/pos_tag.py` -/

/-- A TreeTagger tag: (word, pos, lemma). -/
abbrev Tag := String × String × String

/-- JSON-ish values of a corpus item; `.null` doubles for an absent value. -/
inductive Value where
  | str : String → Value
  | tags : List Tag → Value
  | null
  deriving Repr, DecidableEq

/-- A corpus item is a JSON object, modelled as an association list. -/
abbrev Item := List (String × Value)

/-- Python truthiness of `item.get(key)`: missing keys and `None` are falsy,
strings and lists are truthy iff non-empty. -/
def truthy : Option Value → Bool
  | none => false
  | some .null => false
  | some (.str s) => s != ""
  | some (.tags ts) => !ts.isEmpty

/-- `item[key]`, defaulting to the falsy `None` when absent. -/
def getVal (item : Item) (key : String) : Value :=
  (item.lookup key).getD .null

/-- `item[key] = v` dictionary assignment: update in place, append if new. -/
def setVal (item : Item) (k : String) (v : Value) : Item :=
  upsert k (fun _ => v) v item

/-- `self._finalize_batch(jobs, pos_tag_key)` (lines 154-158): wait for every
submitted job, store the post-processed tags of the job's text under
`pos_tag_key` and yield the item.  `tagText` stands for the deterministic
result of `self._postprocess_tags(make_tags(job.result))` on a job's text. -/
def finalizeBatch (tagText : Value → List Tag) (posTagKey : String)
    (jobs : List (Item × Value)) : List Item :=
  jobs.map (fun p => setVal p.1 posTagKey (.tags (tagText p.2)))

/-- The loop of `TTPosTagger.tag_many` (lines 139-150), yielding the batches
produced by each `_finalize_batch` call.  `i` is the `enumerate` counter over
all items (skipped ones included); each eligible item's text is submitted to
the pool and the pending jobs are flushed when `i % batch_size == 0`
(the check runs only on eligible items, `continue` skips it); a final flush
happens after the input is exhausted. -/
def tagManyLoop (tagText : Value → List Tag) (docKey posTagKey : String) (batchSize : Nat) :
    List Item → Nat → List (Item × Value) → List (List Item)
  | [], _, jobs => [finalizeBatch tagText posTagKey jobs]
  | item :: rest, i, jobs =>
      if truthy (item.lookup docKey) then
        if i % batchSize = 0 then
          finalizeBatch tagText posTagKey (jobs ++ [(item, getVal item docKey)]) ::
            tagManyLoop tagText docKey posTagKey batchSize rest (i + 1) []
        else tagManyLoop tagText docKey posTagKey batchSize rest (i + 1)
          (jobs ++ [(item, getVal item docKey)])
      else tagManyLoop tagText docKey posTagKey batchSize rest (i + 1) jobs

/-- The batches yielded by `TTPosTagger.tag_many` (lines 131-152). -/
def tag_many_batches (tagText : Value → List Tag) (docKey posTagKey : String)
    (batchSize : Nat) (items : List Item) : List (List Item) :=
  tagManyLoop tagText docKey posTagKey batchSize items 0 []

/-- A run of the `tag_many` generator: the yielded batches, plus whether
`tt_pool.stop_poll()` ran (the `finally` of line 151-152 runs it on the
modelled, normal exit path). -/
structure TagRun where
  batches : List (List Item)
  poolStopped : Bool
  deriving Repr, DecidableEq

/-- `TTPosTagger.tag_many` as a full generator run. -/
def tag_many_run (tagText : Value → List Tag) (docKey posTagKey : String)
    (batchSize : Nat) (items : List Item) : TagRun :=
  { batches := tag_many_batches tagText docKey posTagKey batchSize items
    poolStopped := true }

/-- The flat sequence of items yielded by `TTPosTagger.tag_many`. -/
def tag_many (tagText : Value → List Tag) (docKey posTagKey : String)
    (batchSize : Nat) (items : List Item) : List Item :=
  (tag_many_batches tagText docKey posTagKey batchSize items).flatten

/-- The flush rule of the batching loop, stated over the explicitly
enumerated input (amended specification side): pending results are yielded
exactly after an eligible item whose 0-based input index — counting skipped
items — is divisible by `batchSize`, and the remaining results are yielded
once the input is exhausted. -/
def specBatchesAux (tagText : Value → List Tag) (docKey posTagKey : String) (batchSize : Nat) :
    List (Nat × Item) → List Item → List (List Item)
  | [], pending => [pending]
  | (i, item) :: rest, pending =>
      if truthy (item.lookup docKey) then
        if i % batchSize = 0 then
          (pending ++ [setVal item posTagKey (.tags (tagText (getVal item docKey)))]) ::
            specBatchesAux tagText docKey posTagKey batchSize rest []
        else specBatchesAux tagText docKey posTagKey batchSize rest
          (pending ++ [setVal item posTagKey (.tags (tagText (getVal item docKey)))])
      else specBatchesAux tagText docKey posTagKey batchSize rest pending

/-- The batches described by the amended claim, over the enumerated input. -/
def specBatches (tagText : Value → List Tag) (docKey posTagKey : String)
    (batchSize : Nat) (items : List Item) : List (List Item) :=
  specBatchesAux tagText docKey posTagKey batchSize items.enum []

/-- `NLTKPosTagger.tag_many` (lines 28-30):
`pos_tag_sents((word_tokenize(d) for d in documents), tagset)` maps the
NLTK tokenize-and-tag pipeline over raw text documents, returning bare
tagged-token lists (no items, no keys). -/
def nltk_tag_many (posTagSent : String → List (String × String)) (documents : List String) :
    List (List (String × String)) :=
  documents.map posTagSent

/-- A Python function signature: how many positional parameters it declares
(`self` excluded) and how many of those have defaults.  A `**kwargs`
parameter binds no positional argument. -/
structure PySig where
  required : Nat
  optional : Nat
  deriving Repr, DecidableEq

/-- Whether a call passing `n` positional arguments binds the signature
without a `TypeError` (no `*args` in either signature). -/
def acceptsPositional (sig : PySig) (n : Nat) : Bool :=
  sig.required ≤ n && n ≤ sig.required + sig.optional

/-- `NLTKPosTagger.tag_many(self, documents, tagset=None, **kwargs)` (line 28). -/
def nltk_tag_many_sig : PySig := { required := 1, optional := 1 }

/-- `TTPosTagger.tag_many(self, items, document_key, pos_tag_key,
batch_size=10000, **kwargs)` (line 100). -/
def tt_tag_many_sig : PySig := { required := 3, optional := 1 }

/-- `main` calls `pos_tagger.tag_many(corpus, document_key, pos_tag_key,
batch_size)` (line 189): 4 positional arguments, whichever tagger was
selected by `--tagger`. -/
def main_tag_many_positional_args : Nat := 4

/-! ## Embedding of `strephit/classification/train.py` -/

/-- A parsed line of the training-set file: a JSON object with at least the
`sentence` and `fes` members read by `main` (lines 44-46). -/
structure TrainRow where
  sentence : String
  fes : List (String × Option String)
  deriving Repr, DecidableEq

/-- Modelled from the spec: `FactExtractorFeatureExtractor.process_sentence`
(module `strephit/classification/feature_extractors.py`, not present under
`src/`).  The spec only says linguistic features are extracted from each
sentence fed to the extractor, so the extractor state is modelled as the
sequence of `(sentence, fes)` pairs it was fed, in order. -/
def process_sentence (state : List (String × List (String × Option String)))
    (sentence : String) (fes : List (String × Option String)) :
    List (String × List (String × Option String)) :=
  state ++ [(sentence, fes)]

/-- The keyword options `main` receives from click (lines 21-34);
`c` is the value of the `-c` option. -/
structure SVCOptions where
  c : ℚ
  loss : String
  penalty : String
  dual : Bool
  tol : ℚ
  multiClass : String
  verbose : Bool
  randomState : Option Int
  maxIter : Nat
  deriving Repr, DecidableEq

/-- The constructed `LinearSVC(**kwargs)` after `kwargs['C'] = kwargs.pop('c')`
(lines 54-55): its hyper-parameters. -/
structure LinearSVC where
  C : ℚ
  loss : String
  penalty : String
  dual : Bool
  tol : ℚ
  multiClass : String
  verbose : Bool
  randomState : Option Int
  maxIter : Nat
  deriving Repr, DecidableEq

/-- The result of a `train.py` run: the configured classifier, the feature
matrix passed to `svc.fit` and the extractor history.  `φ` abstracts the
output of `extractor.get_features()` (repo code not present under `src/`,
modelled from the spec as an arbitrary function of the extractor state). -/
structure TrainResult (φ : Type) where
  svc : LinearSVC
  fitInput : φ
  processed : List (String × List (String × Option String))

/-- `main` of `train.py` (lines 36-59): feed every line's `sentence` and
`fes` to the extractor in file order, then build `LinearSVC` with `C` set to
the `-c` value and fit it on `extractor.get_features()`. -/
def train_main {φ : Type} (getFeatures : List (String × List (String × Option String)) → φ)
    (trainingSet : List TrainRow) (opts : SVCOptions) : TrainResult φ :=
  let finalState := trainingSet.foldl (fun st row => process_sentence st row.sentence row.fes) []
  { svc :=
      { C := opts.c, loss := opts.loss, penalty := opts.penalty, dual := opts.dual
        tol := opts.tol, multiClass := opts.multiClass, verbose := opts.verbose
        randomState := opts.randomState, maxIter := opts.maxIter }
    fitInput := getFeatures finalState
    processed := finalState }

/-! ## Concrete inputs used by witnesses and counterexamples -/

/-- A deterministic instance of `random.choice`: the head of the list. -/
def pick₀ : List String → String := fun l => l.headD ""

/-- One judgment row: both chunks `a` and `b` got the frame element `f`. -/
def row₀ : Row :=
  { unitId := "u", rowId := "s1", sentence := "S", frame := "F"
    chunks := ["a", "b"], answers := ["f", "f"], fes := ["f"] }

/-- A judgment row with an fe column (`g`) that no chunk's vote elects. -/
def row₁ : Row :=
  { unitId := "u", rowId := "s1", sentence := "S", frame := "F"
    chunks := ["a"], answers := ["f"], fes := ["f", "g"] }

/-- A row of a second unit. -/
def row₂ : Row :=
  { unitId := "v", rowId := "s2", sentence := "T", frame := "F"
    chunks := ["c"], answers := ["g"], fes := ["g"] }

/-- A row agreeing with `row₀` on `_unit_id`, `id` and `sentence` but not on
`frame`. -/
def rowBad : Row :=
  { unitId := "u", rowId := "s1", sentence := "S", frame := "G"
    chunks := ["a", "b"], answers := ["f", "f"], fes := ["f"] }

/-- A fixed tagging function for concrete runs of the tagger model. -/
def tagText₀ : Value → List Tag := fun _ => [("w", "N", "w")]

/-- Three eligible corpus items. -/
def itemA : Item := [("text", .str "x")]

/-- Second eligible corpus item. -/
def itemB : Item := [("text", .str "y")]

/-- Third eligible corpus item. -/
def itemC : Item := [("text", .str "z")]

/-! ## Association-list lemmas -/

theorem lookup_cons_self {β : Type} (k : String) (b : β) (es : List (String × β)) :
    ((k, b) :: es).lookup k = some b := by
  show (match k == k with | true => some b | false => es.lookup k) = some b
  rw [beq_self_eq_true]

theorem lookup_cons_ne {β : Type} (a k : String) (b : β) (es : List (String × β)) (h : a ≠ k) :
    ((k, b) :: es).lookup a = es.lookup a := by
  show (match a == k with | true => some b | false => es.lookup a) = es.lookup a
  rw [beq_eq_false_iff_ne.mpr h]

theorem lookup_upsert_self {β : Type} (k : String) (f : β → β) (init : β)
    (m : List (String × β)) :
    (upsert k f init m).lookup k =
      some (match m.lookup k with | some v => f v | none => init) := by
  induction m with
  | nil => simp [upsert, lookup_cons_self, List.lookup]
  | cons p rest ih =>
      obtain ⟨k0, v0⟩ := p
      by_cases h : k0 = k
      · subst h
        simp [upsert, lookup_cons_self]
      · have h2 : k ≠ k0 := fun hh => h hh.symm
        simp [upsert, h, lookup_cons_ne _ _ _ _ h2, ih]

theorem lookup_upsert_ne {β : Type} (k g : String) (f : β → β) (init : β)
    (m : List (String × β)) (h : g ≠ k) :
    (upsert k f init m).lookup g = m.lookup g := by
  induction m with
  | nil =>
      show ((k, init) :: []).lookup g = ([] : List (String × β)).lookup g
      rw [lookup_cons_ne _ _ _ _ h]
  | cons p rest ih =>
      obtain ⟨k0, v0⟩ := p
      by_cases hk : k0 = k
      · subst hk
        simp [upsert, lookup_cons_ne _ _ _ _ h]
      · by_cases hg : g = k0
        · subst hg
          simp [upsert, hk, lookup_cons_self]
        · simp [upsert, hk, lookup_cons_ne _ _ _ _ hg, ih]

theorem keys_upsert {β : Type} (k : String) (f : β → β) (init : β) (m : List (String × β)) :
    (upsert k f init m).map Prod.fst =
      if k ∈ m.map Prod.fst then m.map Prod.fst else m.map Prod.fst ++ [k] := by
  induction m with
  | nil => simp [upsert]
  | cons p rest ih =>
      obtain ⟨k0, v0⟩ := p
      by_cases h : k0 = k
      · subst h
        simp [upsert]
      · have h2 : k ≠ k0 := fun hh => h hh.symm
        by_cases hmem : k ∈ rest.map Prod.fst <;>
          simp [upsert, h, ih, hmem, h2]

theorem nodupKeys_upsert {β : Type} (k : String) (f : β → β) (init : β)
    (m : List (String × β)) (h : (m.map Prod.fst).Nodup) :
    ((upsert k f init m).map Prod.fst).Nodup := by
  rw [keys_upsert]
  by_cases hmem : k ∈ m.map Prod.fst
  · simpa [hmem] using h
  · simpa [hmem, List.nodup_append] using h

theorem mem_of_lookup_some {β : Type} (m : List (String × β)) (k : String) (v : β)
    (h : m.lookup k = some v) : (k, v) ∈ m := by
  induction m with
  | nil => simp [List.lookup] at h
  | cons p rest ih =>
      obtain ⟨k0, v0⟩ := p
      by_cases hk : k = k0
      · subst hk
        rw [lookup_cons_self] at h
        simp [Option.some_inj.mp h]
      · rw [lookup_cons_ne _ _ _ _ hk] at h
        exact List.mem_cons_of_mem _ (ih h)

theorem lookup_of_mem_nodupKeys {β : Type} (m : List (String × β)) (k : String) (v : β)
    (hn : (m.map Prod.fst).Nodup) (h : (k, v) ∈ m) : m.lookup k = some v := by
  induction m with
  | nil => simp at h
  | cons p rest ih =>
      obtain ⟨k0, v0⟩ := p
      rcases List.mem_cons.mp h with h1 | h1
      · obtain ⟨rfl, rfl⟩ := Prod.mk.injEq .. ▸ h1
        exact lookup_cons_self ..
      · have hk : k ≠ k0 := by
          rintro rfl
          exact (List.nodup_cons.mp hn).1 (List.mem_map.mpr ⟨(k, v), h1, rfl⟩)
        rw [lookup_cons_ne _ _ _ _ hk]
        exact ih (List.nodup_cons.mp hn).2 h1

theorem lookup_isSome_iff_mem_keys {β : Type} (m : List (String × β)) (k : String) :
    (m.lookup k).isSome ↔ k ∈ m.map Prod.fst := by
  induction m with
  | nil => simp [List.lookup]
  | cons p rest ih =>
      obtain ⟨k0, v0⟩ := p
      by_cases hk : k = k0
      · subst hk
        simp [lookup_cons_self]
      · simp [lookup_cons_ne _ _ _ _ hk, ih, hk]

theorem foldl_preserve {α β : Type} (P : β → Prop) (f : β → α → β)
    (h : ∀ b a, P b → P (f b a)) :
    ∀ (l : List α) (b : β), P b → P (l.foldl f b)
  | [], b, hb => hb
  | a :: l, b, hb => foldl_preserve P f h l (f b a) (h b a hb)

theorem upsert_forall_values {β : Type} (Q : β → Prop) (k : String) (f : β → β) (init : β)
    (m : List (String × β)) (hm : ∀ p ∈ m, Q p.2) (hf : ∀ v, Q v → Q (f v)) (hi : Q init) :
    ∀ p ∈ upsert k f init m, Q p.2 := by
  induction m with
  | nil => simpa [upsert] using hi
  | cons p rest ih =>
      obtain ⟨k0, v0⟩ := p
      by_cases h : k0 = k
      · subst h
        intro q hq
        rcases List.mem_cons.mp (by simpa [upsert] using hq) with h1 | h1
        · subst h1
          exact hf _ (hm (k0, v0) (by simp))
        · exact hm q (List.mem_cons_of_mem _ h1)
      · intro q hq
        rcases List.mem_cons.mp (by simpa [upsert, h] using hq) with h1 | h1
        · subst h1
          exact hm (k0, v0) (by simp)
        · exact ih (fun p hp => hm p (List.mem_cons_of_mem _ hp)) q h1

/-! ## Maximum-fold lemmas -/

theorem foldl_max_le_iff (l : List Nat) (init n : Nat) :
    l.foldl max init ≤ n ↔ init ≤ n ∧ ∀ x ∈ l, x ≤ n := by
  induction l generalizing init with
  | nil => simp
  | cons a t ih =>
      show t.foldl max (max init a) ≤ n ↔ _
      rw [ih]
      simp only [Nat.max_le, List.mem_cons]
      constructor
      · rintro ⟨⟨h1, h2⟩, h3⟩
        exact ⟨h1, fun x hx => by rcases hx with rfl | hx; exacts [h2, h3 x hx]⟩
      · rintro ⟨h1, h2⟩
        exact ⟨⟨h1, h2 a (Or.inl rfl)⟩, fun x hx => h2 x (Or.inr hx)⟩

theorem le_foldl_max (l : List Nat) (init : Nat) :
    init ≤ l.foldl max init ∧ ∀ x ∈ l, x ≤ l.foldl max init :=
  (foldl_max_le_iff l init _).mp le_rfl

theorem foldl_max_eq_init_or_mem (l : List Nat) (init : Nat) :
    l.foldl max init = init ∨ l.foldl max init ∈ l := by
  induction l generalizing init with
  | nil => exact Or.inl rfl
  | cons a t ih =>
      show t.foldl max (max init a) = init ∨ t.foldl max (max init a) ∈ a :: t
      rcases ih (max init a) with h | h
      · rcases Nat.le_total init a with hle | hle
        · rw [h, Nat.max_eq_right hle]
          exact Or.inr (List.mem_cons_self _ _)
        · rw [h, Nat.max_eq_left hle]
          exact Or.inl rfl
      · exact Or.inr (List.mem_cons_of_mem _ h)

/-! ## Vote-tally lemmas -/

theorem lookup_tally_aux (J : List String) (m : List (String × Nat)) (f : String) :
    (J.foldl bump m).lookup f =
      if f ∈ J ∨ (m.lookup f).isSome then some ((m.lookup f).getD 0 + J.count f) else none := by
  induction J generalizing m with
  | nil =>
      cases h : m.lookup f <;> simp [h]
  | cons a J ih =>
      show ((J.foldl bump (bump m a)).lookup f) = _
      rw [ih]
      by_cases hfa : f = a
      · subst hfa
        cases h : m.lookup f with
        | none =>
            have hself : (bump m f).lookup f = some 1 := by
              unfold bump
              rw [lookup_upsert_self, h]
            simp [hself, h, List.count_cons_self, List.mem_cons, Nat.add_comm]
        | some v =>
            have hself : (bump m f).lookup f = some (v + 1) := by
              unfold bump
              rw [lookup_upsert_self, h]
            simp only [hself, h, List.count_cons_self, List.mem_cons, Option.isSome_some,
              Option.getD_some, or_true, true_or, if_pos]
            congr 1
            omega
      · rw [show (bump m a).lookup f = m.lookup f from lookup_upsert_ne _ _ _ _ _ hfa]
        have hcnt : (a :: J).count f = J.count f := by
          simp [List.count_cons, hfa]
        have hmemiff : (f ∈ a :: J ∨ (m.lookup f).isSome = true) ↔
            (f ∈ J ∨ (m.lookup f).isSome = true) := by
          rw [List.mem_cons]
          constructor
          · rintro ((rfl | hm2) | hs)
            · exact absurd rfl hfa
            · exact Or.inl hm2
            · exact Or.inr hs
          · rintro (hm | hs)
            · exact Or.inl (Or.inr hm)
            · exact Or.inr hs
        rw [hcnt]
        exact if_congr hmemiff.symm rfl rfl

theorem lookup_tally (J : List String) (f : String) :
    (tally J).lookup f = if f ∈ J then some (J.count f) else none := by
  have := lookup_tally_aux J [] f
  simpa [tally, List.lookup] using this

theorem tally_nodupKeys (J : List String) : ((tally J).map Prod.fst).Nodup := by
  refine foldl_preserve (fun m => (m.map Prod.fst).Nodup) bump ?_ J [] (by simp)
  intro m a hm
  exact nodupKeys_upsert _ _ _ _ hm

theorem mem_tally_spec (J : List String) (p : String × Nat) (h : p ∈ tally J) :
    p.1 ∈ J ∧ p.2 = J.count p.1 := by
  have hl : (tally J).lookup p.1 = some p.2 :=
    lookup_of_mem_nodupKeys _ _ _ (tally_nodupKeys J) h
  rw [lookup_tally] at hl
  by_cases hm : p.1 ∈ J
  · rw [if_pos hm] at hl
    exact ⟨hm, (Option.some_inj.mp hl).symm⟩
  · rw [if_neg hm] at hl
    exact absurd hl (by simp)

theorem maxCount_tally_eq_maxVotes (J : List String) :
    maxCount (tally J) = maxVotes J := by
  apply Nat.le_antisymm
  · rw [maxCount, foldl_max_le_iff]
    refine ⟨Nat.zero_le _, ?_⟩
    intro x hx
    obtain ⟨p, hp, rfl⟩ := List.mem_map.mp hx
    obtain ⟨h1, h2⟩ := mem_tally_spec J p hp
    have : votes J p.1 ∈ J.map (votes J) := List.mem_map.mpr ⟨p.1, h1, rfl⟩
    rw [h2]
    exact (le_foldl_max _ _).2 _ this
  · rw [maxVotes, foldl_max_le_iff]
    refine ⟨Nat.zero_le _, ?_⟩
    intro x hx
    obtain ⟨f, hf, rfl⟩ := List.mem_map.mp hx
    have hmem : (f, J.count f) ∈ tally J := by
      apply mem_of_lookup_some
      rw [lookup_tally, if_pos hf]
    have : J.count f ∈ (tally J).map Prod.snd := List.mem_map.mpr ⟨(f, J.count f), hmem, rfl⟩
    exact (le_foldl_max _ _).2 _ this

theorem mem_winners_spec (J : List String) (fe : String) (h : fe ∈ winners (tally J)) :
    fe ∈ J ∧ votes J fe = maxVotes J := by
  obtain ⟨p, hp, rfl⟩ := List.mem_map.mp h
  obtain ⟨hmem, hval⟩ := List.mem_filter.mp hp
  obtain ⟨h1, h2⟩ := mem_tally_spec J p hmem
  have hmax : p.2 = maxCount (tally J) := by simpa using hval
  exact ⟨h1, by rw [votes, ← h2, hmax, maxCount_tally_eq_maxVotes]⟩

theorem winners_ne_nil (J : List String) (h : J ≠ []) : winners (tally J) ≠ [] := by
  obtain ⟨a, t, rfl⟩ := List.exists_cons_of_ne_nil h
  have hmem : (a, (a :: t).count a) ∈ tally (a :: t) := by
    apply mem_of_lookup_some
    rw [lookup_tally, if_pos (List.mem_cons_self a t)]
  have hpos : 0 < (a :: t).count a := List.count_pos_iff.mpr (List.mem_cons_self a t)
  have hvals : (a :: t).count a ∈ (tally (a :: t)).map Prod.snd :=
    List.mem_map.mpr ⟨_, hmem, rfl⟩
  have hle : (a :: t).count a ≤ maxCount (tally (a :: t)) := (le_foldl_max _ _).2 _ hvals
  rcases foldl_max_eq_init_or_mem ((tally (a :: t)).map Prod.snd) 0 with h0 | hm
  · rw [maxCount] at hle
    omega
  · obtain ⟨p, hp, hpv⟩ := List.mem_map.mp hm
    intro hnil
    have : p ∈ (tally (a :: t)).filter (fun p => p.2 == maxCount (tally (a :: t))) := by
      apply List.mem_filter.mpr
      exact ⟨hp, by simp [hpv, maxCount]⟩
    have : p.1 ∈ winners (tally (a :: t)) := List.mem_map.mpr ⟨p, this, rfl⟩
    rw [hnil] at this
    simp at this

/-! ## Lemmas on the chunk → judgments map -/

theorem rowJudgments_preserve (P : List (String × List String) → Prop)
    (hP : ∀ m chunk fe, P m → P (addJudgment m chunk fe))
    (chunkCount : Nat) (row : Row) (m : List (String × List String)) (hm : P m) :
    P (rowJudgments chunkCount row m) := by
  refine foldl_preserve P _ ?_ (List.range chunkCount) m hm
  intro b i hb
  dsimp only
  split
  · exact hP _ _ _ hb
  · exact hb

theorem buildChunks_preserve (P : List (String × List String) → Prop)
    (hP : ∀ m chunk fe, P m → P (addJudgment m chunk fe))
    (chunkCount : Nat) (rows : List Row) (hnil : P []) :
    P (buildChunks chunkCount rows) :=
  foldl_preserve P _ (fun m row hm => rowJudgments_preserve P hP chunkCount row m hm)
    rows [] hnil

theorem buildChunks_nodupKeys (chunkCount : Nat) (rows : List Row) :
    ((buildChunks chunkCount rows).map Prod.fst).Nodup := by
  refine buildChunks_preserve (fun m => (m.map Prod.fst).Nodup) ?_ chunkCount rows (by simp)
  intro m chunk fe hm
  exact nodupKeys_upsert _ _ _ _ hm

theorem buildChunks_values_ne_nil (chunkCount : Nat) (rows : List Row) :
    ∀ p ∈ buildChunks chunkCount rows, p.2 ≠ [] := by
  refine buildChunks_preserve (fun m => ∀ p ∈ m, p.2 ≠ []) ?_ chunkCount rows (by simp)
  intro m chunk fe hm
  refine upsert_forall_values (fun js => js ≠ []) _ _ _ _ hm ?_ (by simp)
  intro v _
  simp

/-! ## Lemmas on the majority-vote election -/

theorem electChunk_lookup_invariant (pick : List String → String)
    (hp : ∀ l, l ≠ [] → pick l ∈ l)
    (M : List (String × List String)) (hM : (M.map Prod.fst).Nodup)
    (fes : List (String × Option String)) (chunk : String) (J : List String)
    (hmem : (chunk, J) ∈ M) (hJ : J ≠ [])
    (hinv : ∀ fe c, fes.lookup fe = some (some c) → isMajority M fe c) :
    ∀ fe c, (electChunk pick fes chunk J).lookup fe = some (some c) → isMajority M fe c := by
  intro fe c h
  by_cases hfe : fe = pick (winners (tally J))
  · subst hfe
    have hself : (electChunk pick fes chunk J).lookup (pick (winners (tally J))) =
        some (some chunk) := by
      unfold electChunk setChunk
      rw [lookup_upsert_self]
      split <;> rfl
    rw [hself] at h
    obtain rfl : chunk = c := by simpa using h
    have hpickmem : pick (winners (tally J)) ∈ winners (tally J) :=
      hp _ (winners_ne_nil J hJ)
    obtain ⟨hJmem, hmax⟩ := mem_winners_spec J _ hpickmem
    exact ⟨J, lookup_of_mem_nodupKeys _ _ _ hM hmem, hJmem, hmax⟩
  · have hne : (electChunk pick fes chunk J).lookup fe = fes.lookup fe := by
      unfold electChunk setChunk
      exact lookup_upsert_ne _ _ _ _ _ hfe
    rw [hne] at h
    exact hinv fe c h

theorem buildFes_majority_aux (pick : List String → String)
    (hp : ∀ l, l ≠ [] → pick l ∈ l)
    (M : List (String × List String)) (hM : (M.map Prod.fst).Nodup)
    (hne : ∀ p ∈ M, p.2 ≠ []) :
    ∀ (l : List (String × List String)) (fes : List (String × Option String)),
      (∀ p ∈ l, p ∈ M) →
      (∀ fe c, fes.lookup fe = some (some c) → isMajority M fe c) →
      ∀ fe c, (l.foldl (fun fes p => electChunk pick fes p.1 p.2) fes).lookup fe =
          some (some c) → isMajority M fe c
  | [], fes, _, hinv => hinv
  | p :: l, fes, hl, hinv => by
      obtain ⟨chunk, J⟩ := p
      have hmem : (chunk, J) ∈ M := hl _ (List.mem_cons_self _ _)
      have hJ : J ≠ [] := hne _ hmem
      exact buildFes_majority_aux pick hp M hM hne l (electChunk pick fes chunk J)
        (fun q hq => hl q (List.mem_cons_of_mem _ hq))
        (electChunk_lookup_invariant pick hp M hM fes chunk J hmem hJ hinv)

theorem buildFes_majority (pick : List String → String)
    (hp : ∀ l, l ≠ [] → pick l ∈ l)
    (M : List (String × List String)) (hM : (M.map Prod.fst).Nodup)
    (hne : ∀ p ∈ M, p.2 ≠ []) (fe c : String)
    (h : (buildFes pick M).lookup fe = some (some c)) : isMajority M fe c := by
  refine buildFes_majority_aux pick hp M hM hne M [] (fun p hp => hp) ?_ fe c h
  intro fe c hc
  simp [List.lookup] at hc

theorem buildFes_nodupKeys (pick : List String → String)
    (M : List (String × List String)) :
    ((buildFes pick M).map Prod.fst).Nodup := by
  unfold buildFes
  refine foldl_preserve (fun fes => (fes.map Prod.fst).Nodup)
    (fun fes p => electChunk pick fes p.1 p.2) ?_ M [] (by simp)
  intro fes p hfes
  exact nodupKeys_upsert _ _ _ _ hfes

/-! ## Lemmas on the missing-FE fill-in -/

theorem fillMissing_step_backward (first : Row) (i : Nat)
    (fes : List (String × Option String)) (fe : String) (c : String)
    (h : ((if first.fes.getD i "" ≠ "" ∧ fes.lookup (first.fes.getD i "") = none then
        setChunk fes (first.fes.getD i "") none else fes)).lookup fe = some (some c)) :
    fes.lookup fe = some (some c) := by
  split at h
  · rename_i hcond
    by_cases hfe : fe = first.fes.getD i ""
    · subst hfe
      unfold setChunk at h
      rw [lookup_upsert_self] at h
      rw [hcond.2] at h
      simp at h
    · unfold setChunk at h
      rwa [lookup_upsert_ne _ _ _ _ _ hfe] at h
  · exact h

theorem fillMissing_backward (feCount : Nat) (first : Row)
    (fes : List (String × Option String)) (fe : String) (c : String)
    (h : (fillMissing feCount first fes).lookup fe = some (some c)) :
    fes.lookup fe = some (some c) := by
  induction feCount generalizing fe c with
  | zero => exact h
  | succ n ih =>
      rw [fillMissing, List.range_succ, List.foldl_append] at h
      exact ih _ _ (fillMissing_step_backward first n _ fe c h)

theorem fillMissing_nodupKeys (feCount : Nat) (first : Row)
    (fes : List (String × Option String)) (hn : (fes.map Prod.fst).Nodup) :
    ((fillMissing feCount first fes).map Prod.fst).Nodup := by
  refine foldl_preserve (fun fes => (fes.map Prod.fst).Nodup) _ ?_ (List.range feCount) fes hn
  intro b i hb
  dsimp only
  split
  · exact nodupKeys_upsert _ _ _ _ hb
  · exact hb

theorem lookup_setChunk_isSome (m : List (String × Option String)) (k g : String)
    (v : Option String) (h : (m.lookup g).isSome) :
    ((setChunk m k v).lookup g).isSome := by
  by_cases hg : g = k
  · subst hg
    unfold setChunk
    rw [lookup_upsert_self]
    rfl
  · unfold setChunk
    rwa [lookup_upsert_ne _ _ _ _ _ hg]

theorem fillMissing_isSome_of_isSome (feCount : Nat) (first : Row)
    (fes : List (String × Option String)) (g : String) (h : (fes.lookup g).isSome) :
    ((fillMissing feCount first fes).lookup g).isSome := by
  refine foldl_preserve (fun fes => (fes.lookup g).isSome = true) _ ?_
    (List.range feCount) fes h
  intro b i hb
  dsimp only
  split
  · exact lookup_setChunk_isSome _ _ _ _ hb
  · exact hb

theorem fillMissing_isSome (feCount : Nat) (first : Row)
    (fes : List (String × Option String)) (i : Nat) (hi : i < feCount)
    (hfe : first.fes.getD i "" ≠ "") :
    ((fillMissing feCount first fes).lookup (first.fes.getD i "")).isSome := by
  induction feCount with
  | zero => omega
  | succ n ih =>
      rw [fillMissing, List.range_succ, List.foldl_append]
      simp only [List.foldl_cons, List.foldl_nil]
      rw [← fillMissing]
      rcases Nat.lt_or_ge i n with hin | hin
      · have hprev := ih hin
        split
        · exact lookup_setChunk_isSome _ _ _ _ hprev
        · exact hprev
      · have hni : i = n := by omega
        subst hni
        split
        · unfold setChunk
          rw [lookup_upsert_self]
          rfl
        · rename_i hcond
          rw [not_and_or] at hcond
          rcases hcond with hc | hc
          · exact absurd hfe (by simpa using hc)
          · exact Option.isSome_iff_ne_none.mpr (by simpa using hc)

theorem fillMissing_value_none (feCount : Nat) (first : Row)
    (fes : List (String × Option String)) (fe : String) (v : Option String)
    (h : (fillMissing feCount first fes).lookup fe = some v) :
    fes.lookup fe = some v ∨ v = none := by
  induction feCount generalizing v with
  | zero => exact Or.inl h
  | succ n ih =>
      rw [fillMissing, List.range_succ, List.foldl_append] at h
      simp only [List.foldl_cons, List.foldl_nil] at h
      rw [← fillMissing] at h
      revert h
      split
      · rename_i hcond
        intro h
        by_cases hfe : fe = first.fes.getD n ""
        · subst hfe
          unfold setChunk at h
          rw [lookup_upsert_self, hcond.2] at h
          exact Or.inr (by simpa using h.symm)
        · unfold setChunk at h
          rw [lookup_upsert_ne _ _ _ _ _ hfe] at h
          exact ih v h
      · intro h
        exact ih v h

/-! ## Dedup lemmas (for the `len(set(...)) == 1` assertions) -/

theorem dedup_length_one_of_forall_eq (l : List String) (x : String) (hne : l ≠ [])
    (h : ∀ a ∈ l, a = x) : l.dedup.length = 1 := by
  have hx : x ∈ l.dedup := by
    rw [List.mem_dedup]
    obtain ⟨a, t, rfl⟩ := List.exists_cons_of_ne_nil hne
    have ha := h a (List.mem_cons_self a t)
    rw [← ha]
    exact List.mem_cons_self a t
  have hnodup := List.nodup_dedup l
  have hsub : l.dedup ⊆ [x] := by
    intro a ha
    simp [h a (List.mem_dedup.mp ha)]
  have hle : l.dedup.length ≤ 1 := (List.subperm_of_subset hnodup hsub).length_le
  have hge : 0 < l.dedup.length := List.length_pos_of_mem hx
  omega

theorem forall_eq_of_dedup_length_one (l : List String) (h : l.dedup.length = 1) :
    ∀ a ∈ l, ∀ b ∈ l, a = b := by
  obtain ⟨x, hx⟩ := List.length_eq_one.mp h
  intro a ha b hb
  have ha2 : a ∈ l.dedup := List.mem_dedup.mpr ha
  have hb2 : b ∈ l.dedup := List.mem_dedup.mpr hb
  rw [hx] at ha2 hb2
  simp at ha2 hb2
  rw [ha2, hb2]

/-! ## Structure of successful `process_unit` runs -/

theorem process_unit_ok_elim (pick : List String → String) (unitId : String)
    (sentences : List Row) (u : List (String × JVal))
    (h : process_unit pick unitId sentences = .ok u) :
    ∃ first rest, sentences = first :: rest ∧
      (∀ r ∈ sentences, r.unitId = unitId) ∧
      first.chunks ≠ [] ∧ first.fes ≠ [] ∧
      u = [("id", .str first.rowId), ("sentence", .str first.sentence),
           ("frame", .str first.frame),
           ("fes", .fesMap (fillMissing first.fes.length first
              (buildFes pick (buildChunks first.chunks.length sentences))))] := by
  rw [process_unit.eq_def] at h
  split at h
  · exact Except.noConfusion h
  rename_i hall
  split at h
  · exact Except.noConfusion h
  split at h
  · exact Except.noConfusion h
  split at h
  · exact Except.noConfusion h
  split at h
  · exact Except.noConfusion h
  rename_i first rest hd2 hd3 hd4
  split at h
  · exact Except.noConfusion h
  rename_i hfl
  rw [not_or] at hfl
  refine ⟨first, rest, rfl, ?_, hfl.1, hfl.2, ?_⟩
  · intro r hr
    rw [not_not] at hall
    have := List.all_eq_true.mp hall r hr
    exact eq_of_beq this
  · exact (Except.ok.injEq .. ▸ h).symm

theorem process_unit_ok_intro (pick : List String → String) (unitId : String)
    (first : Row) (rest : List Row)
    (hall : ∀ r ∈ first :: rest, r.unitId = unitId ∧ r.rowId = first.rowId ∧
        r.sentence = first.sentence ∧ r.frame = first.frame)
    (hchunks : first.chunks ≠ []) (hfes : first.fes ≠ []) :
    process_unit pick unitId (first :: rest) =
      .ok [("id", .str first.rowId), ("sentence", .str first.sentence),
           ("frame", .str first.frame),
           ("fes", .fesMap (fillMissing first.fes.length first
              (buildFes pick (buildChunks first.chunks.length (first :: rest)))))] := by
  have h1 : (first :: rest).all (fun s => s.unitId == unitId) = true :=
    List.all_eq_true.mpr (fun r hr => beq_iff_eq.mpr (hall r hr).1)
  have h2 : ((first :: rest).map Row.rowId).dedup.length = 1 := by
    refine dedup_length_one_of_forall_eq _ first.rowId (by simp) ?_
    intro a ha
    obtain ⟨r, hr, rfl⟩ := List.mem_map.mp ha
    exact (hall r hr).2.1
  have h3 : ((first :: rest).map Row.sentence).dedup.length = 1 := by
    refine dedup_length_one_of_forall_eq _ first.sentence (by simp) ?_
    intro a ha
    obtain ⟨r, hr, rfl⟩ := List.mem_map.mp ha
    exact (hall r hr).2.2.1
  have h4 : ((first :: rest).map Row.frame).dedup.length = 1 := by
    refine dedup_length_one_of_forall_eq _ first.frame (by simp) ?_
    intro a ha
    obtain ⟨r, hr, rfl⟩ := List.mem_map.mp ha
    exact (hall r hr).2.2.2
  rw [process_unit.eq_def]
  rw [if_neg (not_not_intro h1)]
  rw [if_neg (fun hne => hne h2)]
  rw [if_neg (fun hne => hne h3)]
  rw [if_neg (fun hne => hne h4)]
  exact if_neg (not_or.mpr ⟨hchunks, hfes⟩)

theorem process_unit_error_of_disagree (pick : List String → String) (unitId : String)
    (sentences : List Row)
    (h : ∃ r1 ∈ sentences, ∃ r2 ∈ sentences, r1.unitId ≠ r2.unitId ∨
        r1.rowId ≠ r2.rowId ∨ r1.sentence ≠ r2.sentence ∨ r1.frame ≠ r2.frame) :
    process_unit pick unitId sentences = .error .assertionError := by
  obtain ⟨r1, hr1, r2, hr2, hdiff⟩ := h
  rw [process_unit.eq_def]
  by_cases c1 : ¬ sentences.all (fun s => s.unitId == unitId)
  · rw [if_pos c1]
  rw [if_neg c1]
  rw [not_not] at c1
  have hunit : ∀ r ∈ sentences, r.unitId = unitId :=
    fun r hr => eq_of_beq (List.all_eq_true.mp c1 r hr)
  have huid : r1.unitId = r2.unitId := by
    rw [hunit r1 hr1, hunit r2 hr2]
  by_cases c2 : (sentences.map Row.rowId).dedup.length ≠ 1
  · rw [if_pos c2]
  rw [if_neg c2]
  rw [not_not] at c2
  have hid : r1.rowId = r2.rowId :=
    forall_eq_of_dedup_length_one _ c2 _ (List.mem_map_of_mem _ hr1) _
      (List.mem_map_of_mem _ hr2)
  by_cases c3 : (sentences.map Row.sentence).dedup.length ≠ 1
  · rw [if_pos c3]
  rw [if_neg c3]
  rw [not_not] at c3
  have hsent : r1.sentence = r2.sentence :=
    forall_eq_of_dedup_length_one _ c3 _ (List.mem_map_of_mem _ hr1) _
      (List.mem_map_of_mem _ hr2)
  by_cases c4 : (sentences.map Row.frame).dedup.length ≠ 1
  · rw [if_pos c4]
  rw [not_not] at c4
  have hframe : r1.frame = r2.frame :=
    forall_eq_of_dedup_length_one _ c4 _ (List.mem_map_of_mem _ hr1) _
      (List.mem_map_of_mem _ hr2)
  rcases hdiff with hd | hd | hd | hd
  · exact absurd huid hd
  · exact absurd hid hd
  · exact absurd hsent hd
  · exact absurd hframe hd

/-- Helper for extracting the `fes` member of the produced dict literal. -/
theorem unitFes_mk (a b c : JVal) (m : List (String × Option String)) :
    unitFes [("id", a), ("sentence", b), ("frame", c), ("fes", .fesMap m)] = m := by
  unfold unitFes
  rw [lookup_cons_ne _ _ _ _ (by decide), lookup_cons_ne _ _ _ _ (by decide),
    lookup_cons_ne _ _ _ _ (by decide), lookup_cons_self]

/-! ## Claim C1 -/

/-- C1, as stated, is false on the code: in the unit produced by
`process_unit` for the single row `row₀` (two chunks `a` and `b`, both of
whose judgments elect the frame element `f`), the chunk `a` received a
judgment, yet no frame element is recorded for it in the returned `fes`
mapping — the later chunk `b` overwrote the entry keyed by `f`. -/
theorem claim1_counterexample :
    process_unit pick₀ "u" [row₀] = .ok
      [("id", .str "s1"), ("sentence", .str "S"), ("frame", .str "F"),
       ("fes", .fesMap [("f", some "b")])] ∧
    ("a", ["f"]) ∈ buildChunks 2 [row₀] ∧
    unitFes [("id", JVal.str "s1"), ("sentence", JVal.str "S"), ("frame", JVal.str "F"),
       ("fes", JVal.fesMap [("f", some "b")])] = [("f", some "b")] ∧
    some "a" ∉ [("f", some "b")].map Prod.snd := by
  refine ⟨by rfl, by decide, by decide, by decide⟩

/-- C1 (amended): for every frame element `fe` that the returned unit's
`fes` mapping binds to a chunk (rather than to `None`), `fe` was proposed
for that chunk and its number of votes among that chunk's judgments equals
the maximum vote count over all frame elements proposed for that chunk.
Chunks whose winning frame element was also won by a later-processed chunk
have no record in `fes` (see the counterexample). -/
theorem claim1_majority_amended (pick : List String → String)
    (hp : ∀ l, l ≠ [] → pick l ∈ l) (unitId : String) (rows : List Row)
    (u : List (String × JVal)) (h : process_unit pick unitId rows = .ok u)
    (fe chunk : String)
    (hl : (unitFes u).lookup fe = some (some chunk)) :
    isMajority (buildChunks (rows.headD default).chunks.length rows) fe chunk := by
  obtain ⟨first, rest, rfl, hall, hchunks, hfes, rfl⟩ := process_unit_ok_elim _ _ _ _ h
  rw [unitFes_mk] at hl
  have h2 := fillMissing_backward _ _ _ _ _ hl
  exact buildFes_majority pick hp _ (buildChunks_nodupKeys _ _)
    (buildChunks_values_ne_nil _ _) fe chunk h2

/-- Witness: the amended C1 theorem applied to a concrete unit. -/
theorem claim1_majority_amended_witness :
    isMajority (buildChunks 1 [row₁]) "f" "a" := by
  have hp : ∀ l : List String, l ≠ [] → pick₀ l ∈ l := by
    intro l hl
    cases l with
    | nil => exact absurd rfl hl
    | cons a t => exact List.mem_cons_self a t
  exact claim1_majority_amended pick₀ hp "u" [row₁]
    [("id", .str "s1"), ("sentence", .str "S"), ("frame", .str "F"),
     ("fes", .fesMap [("f", some "a"), ("g", none)])] (by rfl) "f" "a" (by decide)

/-! ## Claim C6 -/

/-- C6: `process_unit` requires that all rows of a unit agree on
`_unit_id`, `id`, `sentence` and `frame`.  For a non-empty row list in
which two rows differ on one of these fields it raises `AssertionError`;
when all rows carry the grouping key as `_unit_id` and agree on the other
three fields (and the CSV has at least one `chunk_NN` and one `fe_NN`
column, as the crowdflower exports do), no assertion fires and a unit is
returned. -/
theorem claim6_assertions (pick : List String → String) (unitId : String) (rows : List Row)
    (hne : rows ≠ []) :
    ((∃ r1 ∈ rows, ∃ r2 ∈ rows, r1.unitId ≠ r2.unitId ∨ r1.rowId ≠ r2.rowId ∨
        r1.sentence ≠ r2.sentence ∨ r1.frame ≠ r2.frame) →
      process_unit pick unitId rows = .error .assertionError) ∧
    ((∀ r ∈ rows, r.unitId = unitId ∧ r.rowId = (rows.headD default).rowId ∧
        r.sentence = (rows.headD default).sentence ∧ r.frame = (rows.headD default).frame) →
      (rows.headD default).chunks ≠ [] → (rows.headD default).fes ≠ [] →
      ∃ u, process_unit pick unitId rows = .ok u) := by
  constructor
  · exact process_unit_error_of_disagree pick unitId rows
  · intro hall hchunks hfes
    obtain ⟨first, rest, rfl⟩ := List.exists_cons_of_ne_nil hne
    exact ⟨_, process_unit_ok_intro pick unitId first rest hall hchunks hfes⟩

/-- Witness: C6 applied to concrete agreeing and disagreeing units. -/
theorem claim6_assertions_witness :
    process_unit pick₀ "u" [row₀, rowBad] = .error .assertionError ∧
    ∃ u, process_unit pick₀ "u" [row₀] = .ok u := by
  constructor
  · refine (claim6_assertions pick₀ "u" [row₀, rowBad] (by decide)).1 ?_
    exact ⟨row₀, by simp, rowBad, by simp, by decide⟩
  · exact (claim6_assertions pick₀ "u" [row₀] (by decide)).2 (by decide) (by decide) (by decide)

/-! ## Claim C7 -/

/-- C7: in the unit returned by `process_unit`, the `fes` mapping binds
each frame element to at most one chunk (its keys are distinct), and every
non-empty frame element of the first row's `fe_NN` columns appears among
its keys, bound to `None` whenever the majority-vote election bound no
chunk to it.  Since the mapping is keyed by frame element, two distinct
chunks with the same winning frame element keep only one record. -/
theorem claim7_fes_shape (pick : List String → String) (unitId : String) (rows : List Row)
    (u : List (String × JVal)) (h : process_unit pick unitId rows = .ok u) :
    ((unitFes u).map Prod.fst).Nodup ∧
    (∀ i, i < (rows.headD default).fes.length → (rows.headD default).fes.getD i "" ≠ "" →
      ∃ v, (unitFes u).lookup ((rows.headD default).fes.getD i "") = some v ∧
        ((buildFes pick (buildChunks (rows.headD default).chunks.length rows)).lookup
            ((rows.headD default).fes.getD i "") = none → v = none)) := by
  obtain ⟨first, rest, rfl, hall, hchunks, hfes, rfl⟩ := process_unit_ok_elim _ _ _ _ h
  rw [unitFes_mk]
  constructor
  · exact fillMissing_nodupKeys _ _ _ (buildFes_nodupKeys _ _)
  · intro i hi hne
    simp only [List.headD_cons] at hi hne ⊢
    have hs := fillMissing_isSome first.fes.length first
      (buildFes pick (buildChunks first.chunks.length (first :: rest))) i hi hne
    obtain ⟨v, hv⟩ := Option.isSome_iff_exists.mp hs
    refine ⟨v, hv, ?_⟩
    intro hbnone
    rcases fillMissing_value_none _ _ _ _ _ hv with hin | hnone
    · rw [hbnone] at hin
      exact absurd hin (by simp)
    · exact hnone

/-- Witness: C7 applied to a concrete unit with an unelected fe column. -/
theorem claim7_fes_shape_witness :
    (([("f", some "a"), ("g", (none : Option String))].map Prod.fst).Nodup) ∧
    (∀ i, i < row₁.fes.length → row₁.fes.getD i "" ≠ "" →
      ∃ v, ([("f", some "a"), ("g", (none : Option String))] :
          List (String × Option String)).lookup (row₁.fes.getD i "") = some v ∧
        ((buildFes pick₀ (buildChunks row₁.chunks.length [row₁])).lookup
            (row₁.fes.getD i "") = none → v = none)) := by
  have h := claim7_fes_shape pick₀ "u" [row₁]
    [("id", .str "s1"), ("sentence", .str "S"), ("frame", .str "F"),
     ("fes", .fesMap [("f", some "a"), ("g", none)])] (by rfl)
  rw [unitFes_mk] at h
  exact h

/-! ## Lemmas on the grouping of rows by unit id -/

theorem groupAux_lookup : ∀ (rows : List Row) (m : List (String × List Row)) (k : String),
    (rows.foldl (fun m r => appendRow m r.unitId r) m).lookup k =
      match m.lookup k with
      | some rs => some (rs ++ rows.filter (fun r => r.unitId == k))
      | none => if rows.filter (fun r => r.unitId == k) = [] then none
                else some (rows.filter (fun r => r.unitId == k))
  | [], m, k => by cases h : m.lookup k <;> simp [h]
  | r :: rows, m, k => by
      show (rows.foldl (fun m r => appendRow m r.unitId r) (appendRow m r.unitId r)).lookup k = _
      rw [groupAux_lookup rows (appendRow m r.unitId r) k]
      by_cases hk : r.unitId = k
      · subst hk
        have hl : (appendRow m r.unitId r).lookup r.unitId =
            some (match m.lookup r.unitId with | some rs => rs ++ [r] | none => [r]) := by
          unfold appendRow
          rw [lookup_upsert_self]
          cases m.lookup r.unitId <;> rfl
        rw [hl]
        cases h : m.lookup r.unitId <;>
          simp [h, List.filter_cons]
      · have hl : (appendRow m r.unitId r).lookup k = m.lookup k := by
          unfold appendRow
          exact lookup_upsert_ne _ _ _ _ _ (fun hh => hk hh.symm)
        rw [hl]
        have hfc : (r :: rows).filter (fun r => r.unitId == k) =
            rows.filter (fun r => r.unitId == k) := by
          simp [List.filter_cons, hk]
        rw [hfc]

theorem groupRows_lookup (rows : List Row) (k : String) :
    (groupRows rows).lookup k =
      if rows.filter (fun r => r.unitId == k) = [] then none
      else some (rows.filter (fun r => r.unitId == k)) := by
  unfold groupRows
  rw [groupAux_lookup]
  simp [List.lookup]

theorem groupRows_nodupKeys (rows : List Row) :
    ((groupRows rows).map Prod.fst).Nodup := by
  unfold groupRows
  refine foldl_preserve (fun m => (m.map Prod.fst).Nodup)
    (fun m r => appendRow m r.unitId r) ?_ rows [] (by simp)
  intro m r hm
  exact nodupKeys_upsert _ _ _ _ hm

theorem mem_groupRows_keys (rows : List Row) (k : String) :
    k ∈ (groupRows rows).map Prod.fst ↔ k ∈ rows.map Row.unitId := by
  rw [← lookup_isSome_iff_mem_keys, groupRows_lookup]
  by_cases hnil : rows.filter (fun r => r.unitId == k) = []
  · rw [if_pos hnil]
    simp only [Option.isSome_none, Bool.false_eq_true, false_iff]
    intro hmem
    obtain ⟨r, hr, rfl⟩ := List.mem_map.mp hmem
    have := List.filter_eq_nil_iff.mp hnil r hr
    simp at this
  · rw [if_neg hnil]
    simp only [Option.isSome_some, true_iff]
    obtain ⟨r, hr⟩ := List.exists_mem_of_ne_nil _ hnil
    obtain ⟨hrr, hrk⟩ := List.mem_filter.mp hr
    exact List.mem_map.mpr ⟨r, hrr, eq_of_beq hrk⟩

/-! ## Lemmas on the output loop of `parse_results.main` -/

theorem runUnits_ok_length (pick : List String → String) :
    ∀ (groups : List (String × List Row)) (us : List (List (String × JVal))),
      runUnits pick groups = .ok us → us.length = groups.length
  | [], us, h => by
      rw [runUnits] at h
      injection h with h2
      rw [← h2]
      rfl
  | (k, v) :: groups, us, h => by
      rw [runUnits] at h
      cases hpu : process_unit pick k v with
      | error e => rw [hpu] at h; exact Except.noConfusion h
      | ok u =>
          rw [hpu] at h
          cases hru : runUnits pick groups with
          | error e => rw [hru] at h; exact Except.noConfusion h
          | ok us2 =>
              rw [hru] at h
              injection h with h2
              rw [← h2]
              have := runUnits_ok_length pick groups us2 hru
              simp [this]

theorem runUnits_ok_mem (pick : List String → String) :
    ∀ (groups : List (String × List Row)) (us : List (List (String × JVal))),
      runUnits pick groups = .ok us →
      (∀ u ∈ us, ∃ p ∈ groups, process_unit pick p.1 p.2 = .ok u) ∧
      (∀ p ∈ groups, ∃ u ∈ us, process_unit pick p.1 p.2 = .ok u)
  | [], us, h => by
      rw [runUnits] at h
      injection h with h2
      rw [← h2]
      exact ⟨by simp, by simp⟩
  | (k, v) :: groups, us, h => by
      rw [runUnits] at h
      cases hpu : process_unit pick k v with
      | error e => rw [hpu] at h; exact Except.noConfusion h
      | ok u =>
          rw [hpu] at h
          cases hru : runUnits pick groups with
          | error e => rw [hru] at h; exact Except.noConfusion h
          | ok us2 =>
              rw [hru] at h
              injection h with h2
              rw [← h2]
              obtain ⟨ih1, ih2⟩ := runUnits_ok_mem pick groups us2 hru
              constructor
              · intro w hw
                rcases List.mem_cons.mp hw with rfl | hw2
                · exact ⟨(k, v), List.mem_cons_self _ _, hpu⟩
                · obtain ⟨p, hp, hpw⟩ := ih1 w hw2
                  exact ⟨p, List.mem_cons_of_mem _ hp, hpw⟩
              · intro p hp
                rcases List.mem_cons.mp hp with rfl | hp2
                · exact ⟨u, List.mem_cons_self _ _, hpu⟩
                · obtain ⟨w, hw, hpw⟩ := ih2 p hp2
                  exact ⟨w, List.mem_cons_of_mem _ hw, hpw⟩

theorem process_unit_ok_keys (pick : List String → String) (unitId : String)
    (rows : List Row) (u : List (String × JVal))
    (h : process_unit pick unitId rows = .ok u) :
    u.map Prod.fst = ["id", "sentence", "frame", "fes"] := by
  obtain ⟨first, rest, rfl, _, _, _, rfl⟩ := process_unit_ok_elim _ _ _ _ h
  rfl

/-! ## Claim C4 -/

/-- C4: a successful run of `parse_results.main` groups the CSV rows by the
`_unit_id` column and writes exactly one JSON object per distinct
`_unit_id`; every written object has exactly the keys `id`, `sentence`,
`frame` and `fes`, and is the `process_unit` output of exactly the rows of
its unit. -/
theorem claim4_main_lines (pick : List String → String) (rows : List Row)
    (us : List (List (String × JVal))) (h : parse_results_main pick rows = .ok us) :
    us.length = (rows.map Row.unitId).dedup.length ∧
    (∀ u ∈ us, u.map Prod.fst = ["id", "sentence", "frame", "fes"]) ∧
    (∀ u ∈ us, ∃ k, k ∈ rows.map Row.unitId ∧
      process_unit pick k (rows.filter (fun r => r.unitId == k)) = .ok u) ∧
    (∀ k, k ∈ rows.map Row.unitId →
      ∃ u ∈ us, process_unit pick k (rows.filter (fun r => r.unitId == k)) = .ok u) := by
  have hlen := runUnits_ok_length pick (groupRows rows) us h
  have hmem := runUnits_ok_mem pick (groupRows rows) us h
  have hkeys : ∀ p ∈ groupRows rows, p.1 ∈ rows.map Row.unitId ∧
      p.2 = rows.filter (fun r => r.unitId == p.1) := by
    intro p hp
    have h1 : (groupRows rows).lookup p.1 = some p.2 :=
      lookup_of_mem_nodupKeys _ _ _ (groupRows_nodupKeys rows) hp
    rw [groupRows_lookup] at h1
    constructor
    · rw [← mem_groupRows_keys]
      exact List.mem_map.mpr ⟨p, hp, rfl⟩
    · revert h1
      split
      · intro h1
        exact absurd h1 (by simp)
      · intro h1
        exact (Option.some_inj.mp h1).symm
  refine ⟨?_, ?_, ?_, ?_⟩
  · rw [hlen]
    have hperm : ((groupRows rows).map Prod.fst).Perm (rows.map Row.unitId).dedup := by
      rw [List.perm_ext_iff_of_nodup (groupRows_nodupKeys rows) (List.nodup_dedup _)]
      intro a
      rw [mem_groupRows_keys, List.mem_dedup]
    rw [← List.length_map (groupRows rows) Prod.fst]
    exact hperm.length_eq
  · intro u hu
    obtain ⟨p, _, hpu⟩ := hmem.1 u hu
    exact process_unit_ok_keys _ _ _ _ hpu
  · intro u hu
    obtain ⟨p, hp, hpu⟩ := hmem.1 u hu
    obtain ⟨hk, hfilter⟩ := hkeys p hp
    refine ⟨p.1, hk, ?_⟩
    rwa [← hfilter]
  · intro k hk
    have hk2 : k ∈ (groupRows rows).map Prod.fst := (mem_groupRows_keys rows k).mpr hk
    have hsome : ((groupRows rows).lookup k).isSome := (lookup_isSome_iff_mem_keys _ _).mpr hk2
    obtain ⟨rs, hrs⟩ := Option.isSome_iff_exists.mp hsome
    have hmem2 := mem_of_lookup_some _ _ _ hrs
    obtain ⟨u, hu, hpu⟩ := hmem.2 (k, rs) hmem2
    obtain ⟨_, hfilter⟩ := hkeys (k, rs) hmem2
    refine ⟨u, hu, ?_⟩
    rwa [hfilter] at hpu

/-- Witness: C4 applied to a concrete two-unit CSV. -/
theorem claim4_main_lines_witness :
    ∃ us, parse_results_main pick₀ [row₀, row₂] = .ok us ∧
      us.length = ([row₀, row₂].map Row.unitId).dedup.length ∧
      ∀ u ∈ us, u.map Prod.fst = ["id", "sentence", "frame", "fes"] := by
  refine ⟨_, rfl, ?_, ?_⟩
  · exact (claim4_main_lines pick₀ [row₀, row₂] _ rfl).1
  · exact (claim4_main_lines pick₀ [row₀, row₂] _ rfl).2.1

/-! ## Lemmas on the batching loop of `TTPosTagger.tag_many` -/

theorem finalizeBatch_append (tagText : Value → List Tag) (pk : String)
    (jobs1 jobs2 : List (Item × Value)) :
    finalizeBatch tagText pk (jobs1 ++ jobs2) =
      finalizeBatch tagText pk jobs1 ++ finalizeBatch tagText pk jobs2 := by
  simp [finalizeBatch]

theorem tagManyLoop_flatten (tagText : Value → List Tag) (dk pk : String) (bs : Nat) :
    ∀ (items : List Item) (i : Nat) (jobs : List (Item × Value)),
      (tagManyLoop tagText dk pk bs items i jobs).flatten =
        finalizeBatch tagText pk jobs ++
          (items.filter (fun it => truthy (it.lookup dk))).map
            (fun it => setVal it pk (.tags (tagText (getVal it dk))))
  | [], i, jobs => by simp [tagManyLoop]
  | item :: rest, i, jobs => by
      rw [tagManyLoop]
      by_cases he : truthy (item.lookup dk)
      · rw [if_pos he]
        by_cases hf : i % bs = 0
        · rw [if_pos hf]
          rw [List.flatten_cons, tagManyLoop_flatten tagText dk pk bs rest (i + 1) [],
            finalizeBatch_append]
          simp [finalizeBatch, List.filter_cons, he]
        · rw [if_neg hf, tagManyLoop_flatten tagText dk pk bs rest (i + 1)
            (jobs ++ [(item, getVal item dk)]), finalizeBatch_append]
          simp [finalizeBatch, List.filter_cons, he]
      · rw [if_neg he, tagManyLoop_flatten tagText dk pk bs rest (i + 1) jobs]
        simp [List.filter_cons, he]

theorem tagManyLoop_eq_spec (tagText : Value → List Tag) (dk pk : String) (bs : Nat) :
    ∀ (items : List Item) (i : Nat) (jobs : List (Item × Value)),
      tagManyLoop tagText dk pk bs items i jobs =
        specBatchesAux tagText dk pk bs (items.enumFrom i) (finalizeBatch tagText pk jobs)
  | [], i, jobs => by simp [tagManyLoop, specBatchesAux, List.enumFrom]
  | item :: rest, i, jobs => by
      show tagManyLoop tagText dk pk bs (item :: rest) i jobs =
        specBatchesAux tagText dk pk bs ((i, item) :: rest.enumFrom (i + 1))
          (finalizeBatch tagText pk jobs)
      rw [tagManyLoop, specBatchesAux]
      by_cases he : truthy (item.lookup dk)
      · rw [if_pos he, if_pos he]
        by_cases hf : i % bs = 0
        · rw [if_pos hf, if_pos hf,
            tagManyLoop_eq_spec tagText dk pk bs rest (i + 1) [], finalizeBatch_append]
          simp [finalizeBatch]
        · rw [if_neg hf, if_neg hf,
            tagManyLoop_eq_spec tagText dk pk bs rest (i + 1) (jobs ++ [(item, getVal item dk)]),
            finalizeBatch_append]
          simp [finalizeBatch]
      · rw [if_neg he, if_neg he]
        exact tagManyLoop_eq_spec tagText dk pk bs rest (i + 1) jobs

/-! ## Claim C2 -/

/-- C2 fails on the code, and the code (not the spec) is at fault: `main`
offers `--tagger nltk` and uniformly calls
`tag_many(corpus, document_key, pos_tag_key, batch_size)` with 4 positional
arguments; `TTPosTagger.tag_many` binds them, but
`NLTKPosTagger.tag_many(self, documents, tagset=None, **kwargs)` declares
only 2 positional parameters (`**kwargs` binds none), so the NLTK branch
raises `TypeError` on every corpus: the two taggers are not interchangeable
as `main` uses them. -/
theorem claim2_nltk_call_type_error :
    acceptsPositional tt_tag_many_sig main_tag_many_positional_args = true ∧
    acceptsPositional nltk_tag_many_sig main_tag_many_positional_args = false := by
  decide

/-! ## Claim C3 -/

/-- C3, as stated, is false on the code: with `batch_size = 2` and three
eligible items, the loop does not yield batches of 2 submitted jobs (sizes
`[2, 1]`).  Because the flush condition is `i % batch_size == 0` on the raw
`enumerate` index, the first item is flushed alone and a final empty flush
follows: the batch sizes are `[1, 2, 0]`. -/
theorem claim3_counterexample :
    (tag_many_batches tagText₀ "text" "pos" 2 [itemA, itemB, itemC]).map List.length =
      [1, 2, 0] ∧
    (tag_many_batches tagText₀ "text" "pos" 2 [itemA, itemB, itemC]).map List.length ≠
      [2, 1] := by
  constructor <;> decide

/-- C3 (amended): `TTPosTagger.tag_many` submits each eligible item's text
to the pool and awaits and yields the pending results exactly after each
eligible item whose 0-based input index — counting skipped items, so in
particular index 0, yielding the first eligible batch with a single job —
is divisible by `batch_size`, awaiting the remaining jobs after the input
is exhausted (`specBatches`); it yields every eligible item exactly once in
input order, and stops the process pool on the modelled (normal) exit
path. -/
theorem claim3_batching_amended (tagText : Value → List Tag) (dk pk : String) (bs : Nat)
    (hbs : 0 < bs) (items : List Item) :
    (tag_many_run tagText dk pk bs items).batches = specBatches tagText dk pk bs items ∧
    tag_many tagText dk pk bs items =
      (items.filter (fun it => truthy (it.lookup dk))).map
        (fun it => setVal it pk (.tags (tagText (getVal it dk)))) ∧
    (tag_many_run tagText dk pk bs items).poolStopped = true := by
  refine ⟨?_, ?_, rfl⟩
  · show tag_many_batches tagText dk pk bs items = specBatches tagText dk pk bs items
    unfold tag_many_batches specBatches
    rw [tagManyLoop_eq_spec]
    rfl
  · unfold tag_many tag_many_batches
    rw [tagManyLoop_flatten]
    simp [finalizeBatch]

/-- Witness: the amended C3 theorem applied to a concrete corpus. -/
theorem claim3_batching_amended_witness :
    (tag_many_run tagText₀ "text" "pos" 2 [itemA, itemB, itemC]).batches =
      specBatches tagText₀ "text" "pos" 2 [itemA, itemB, itemC] ∧
    tag_many tagText₀ "text" "pos" 2 [itemA, itemB, itemC] =
      ([itemA, itemB, itemC].filter (fun it => truthy (it.lookup "text"))).map
        (fun it => setVal it "pos" (.tags (tagText₀ (getVal it "text")))) ∧
    (tag_many_run tagText₀ "text" "pos" 2 [itemA, itemB, itemC]).poolStopped = true :=
  claim3_batching_amended tagText₀ "text" "pos" 2 (by decide) [itemA, itemB, itemC]

/-! ## Claim C8 -/

/-- C8: `TTPosTagger.tag_many` omits an input item exactly when its value
under `document_key` is missing or empty (falsy), and yields every other
item exactly once, in input order, with the tagged result stored under
`pos_tag_key` and every other field unchanged. -/
theorem claim8_item_frame (tagText : Value → List Tag) (dk pk : String) (bs : Nat)
    (hbs : 0 < bs) (items : List Item) :
    tag_many tagText dk pk bs items =
      (items.filter (fun it => truthy (it.lookup dk))).map
        (fun it => setVal it pk (.tags (tagText (getVal it dk)))) ∧
    (∀ it : Item, ∀ k, k ≠ pk →
      (setVal it pk (.tags (tagText (getVal it dk)))).lookup k = it.lookup k) ∧
    (∀ it : Item,
      (setVal it pk (.tags (tagText (getVal it dk)))).lookup pk =
        some (.tags (tagText (getVal it dk)))) := by
  refine ⟨?_, ?_, ?_⟩
  · unfold tag_many tag_many_batches
    rw [tagManyLoop_flatten]
    simp [finalizeBatch]
  · intro it k hk
    unfold setVal
    exact lookup_upsert_ne _ _ _ _ _ hk
  · intro it
    unfold setVal
    rw [lookup_upsert_self]
    cases it.lookup pk <;> rfl

/-- Witness: C8 applied to a concrete corpus with an ineligible item. -/
theorem claim8_item_frame_witness :
    tag_many tagText₀ "text" "pos" 3 [itemA, [("other", .str "v")]] =
      ([itemA, [("other", .str "v")]].filter (fun it => truthy (it.lookup "text"))).map
        (fun it => setVal it "pos" (.tags (tagText₀ (getVal it "text")))) ∧
    (∀ it : Item, ∀ k, k ≠ "pos" →
      (setVal it "pos" (.tags (tagText₀ (getVal it "text")))).lookup k = it.lookup k) ∧
    (∀ it : Item,
      (setVal it "pos" (.tags (tagText₀ (getVal it "text")))).lookup "pos" =
        some (.tags (tagText₀ (getVal it "text")))) :=
  claim8_item_frame tagText₀ "text" "pos" 3 (by decide) [itemA, [("other", .str "v")]]

/-! ## Claim C5 -/

theorem train_foldl (ts : List TrainRow) :
    ∀ st, ts.foldl (fun st row => process_sentence st row.sentence row.fes) st =
      st ++ ts.map (fun r => (r.sentence, r.fes)) := by
  induction ts with
  | nil => intro st; simp
  | cons r ts ih =>
      intro st
      show ts.foldl _ (process_sentence st r.sentence r.fes) = _
      rw [ih]
      simp [process_sentence]

/-- C5: `train.main` feeds every line of the training set — its `sentence`
and `fes` members, in file order — to the feature extractor before fitting,
the classifier is fitted on `extractor.get_features()` of the fully-fed
extractor, and its penalty parameter `C` equals the value of the `-c`
command-line option. -/
theorem claim5_train_pipeline {φ : Type}
    (getFeatures : List (String × List (String × Option String)) → φ)
    (ts : List TrainRow) (opts : SVCOptions) :
    (train_main getFeatures ts opts).svc.C = opts.c ∧
    (train_main getFeatures ts opts).processed = ts.map (fun r => (r.sentence, r.fes)) ∧
    (train_main getFeatures ts opts).fitInput =
      getFeatures (ts.map (fun r => (r.sentence, r.fes))) := by
  refine ⟨rfl, ?_, ?_⟩
  · show ts.foldl (fun st row => process_sentence st row.sentence row.fes) [] = _
    rw [train_foldl]
    simp
  · show getFeatures (ts.foldl (fun st row => process_sentence st row.sentence row.fes) []) = _
    rw [train_foldl]
    simp

end StrepHit
